import Mathlib

/-!
# Verification of the `rust_toolkit` array utilities

Shallow embedding of the six collection operations of the repository
(`chunk`, `count_by`, `group_by`, `key_by`, `remove`, `uniq`) together with
their fluent extension-trait counterparts, and proofs of the specified
contracts.  Input sequences are modelled as `List`; the `HashMap` results
are modelled as association lists built by the same insertion discipline the
code uses (`entry().or_insert`, overwrite-insert, counter increment), with a
`lookup` function modelling `HashMap::get`.  The panicking argument check of
`chunk` is modelled as `Except` (fail-fast, no partial output).
-/

namespace RustToolkit

variable {α : Type} {τ : Type} {κ : Type}

/-- The chunking loop of `chunk` (src/array/chunk.rs): repeatedly collect up
to `size` elements (`iter.by_ref().take(size)`); if the collected part is
empty, stop; otherwise emit it and continue on the rest of the iterator. -/
def chunkGo (size : Nat) (xs : List α) : List (List α) :=
  if h : (xs.take size).isEmpty then []
  else xs.take size :: chunkGo size (xs.drop size)
termination_by xs.length
decreasing_by
  simp only [List.isEmpty_iff, List.take_eq_nil_iff] at h
  push_neg at h
  have hs : size ≠ 0 := h.1
  have hx : xs ≠ [] := h.2
  have : 0 < xs.length := List.length_pos.mpr hx
  simp only [List.length_drop]
  omega

/-- `chunk(items, size)` (src/array/chunk.rs): asserts `size > 0` (modelled
as an `Except` error carrying the panic message), then runs the chunking
loop. -/
def chunk (xs : List α) (size : Nat) : Except String (List (List α)) :=
  if size > 0 then .ok (chunkGo size xs)
  else .error "size must be greater than 0"

/-- The chunking loop of the extension method `ChunkExt::chunk`
(src/array/chunk.rs), a verbatim duplicate of the free function's loop. -/
def chunkExtGo (size : Nat) (xs : List α) : List (List α) :=
  if h : (xs.take size).isEmpty then []
  else xs.take size :: chunkExtGo size (xs.drop size)
termination_by xs.length
decreasing_by
  simp only [List.isEmpty_iff, List.take_eq_nil_iff] at h
  push_neg at h
  have hs : size ≠ 0 := h.1
  have hx : xs ≠ [] := h.2
  have : 0 < xs.length := List.length_pos.mpr hx
  simp only [List.length_drop]
  omega

/-- The fluent method `ChunkExt::chunk` (src/array/chunk.rs): same assert,
then its own copy of the loop. -/
def chunkExt (xs : List α) (size : Nat) : Except String (List (List α)) :=
  if size > 0 then .ok (chunkExtGo size xs)
  else .error "size must be greater than 0"

theorem chunkGo_nil (size : Nat) : chunkGo size ([] : List α) = [] := by
  rw [chunkGo]
  simp

theorem chunkGo_of_ne (size : Nat) (xs : List α) (hs : 0 < size) (hx : xs ≠ []) :
    chunkGo size xs = xs.take size :: chunkGo size (xs.drop size) := by
  rw [chunkGo]
  have : ¬ (xs.take size).isEmpty := by
    simp only [List.isEmpty_iff, List.take_eq_nil_iff]
    push_neg
    exact ⟨by omega, hx⟩
  simp [this]

theorem chunkGo_join (size : Nat) (hs : 0 < size) (xs : List α) :
    (chunkGo size xs).flatten = xs := by
  suffices h : ∀ n (xs : List α), xs.length = n → (chunkGo size xs).flatten = xs from
    h xs.length xs rfl
  intro n
  induction n using Nat.strong_induction_on with
  | _ n ih =>
    intro xs hn
    cases xs with
    | nil => simp [chunkGo_nil]
    | cons a l =>
      rw [chunkGo_of_ne size _ hs (by simp)]
      have hlt : ((a :: l).drop size).length < n := by
        simp only [List.length_drop, List.length_cons]
        simp only [List.length_cons] at hn
        omega
      rw [List.flatten, ih _ hlt _ rfl, List.take_append_drop]

theorem chunkGo_mem_length (size : Nat) (hs : 0 < size) (xs : List α) :
    ∀ c ∈ chunkGo size xs, 1 ≤ c.length ∧ c.length ≤ size := by
  suffices h : ∀ n (xs : List α), xs.length = n →
      ∀ c ∈ chunkGo size xs, 1 ≤ c.length ∧ c.length ≤ size from
    h xs.length xs rfl
  intro n
  induction n using Nat.strong_induction_on with
  | _ n ih =>
    intro xs hn
    cases xs with
    | nil => simp [chunkGo_nil]
    | cons a l =>
      rw [chunkGo_of_ne size _ hs (by simp)]
      intro c hc
      rcases List.mem_cons.mp hc with h | h
      · subst h
        constructor
        · simp only [List.length_take]
          have : 0 < (a :: l).length := by simp
          omega
        · simp only [List.length_take]
          omega
      · have hlt : ((a :: l).drop size).length < n := by
          simp only [List.length_drop, List.length_cons]
          simp only [List.length_cons] at hn
          omega
        exact ih _ hlt _ rfl c h

theorem chunkGo_dropLast_length (size : Nat) (hs : 0 < size) (xs : List α) :
    ∀ c ∈ (chunkGo size xs).dropLast, c.length = size := by
  suffices h : ∀ n (xs : List α), xs.length = n →
      ∀ c ∈ (chunkGo size xs).dropLast, c.length = size from
    h xs.length xs rfl
  intro n
  induction n using Nat.strong_induction_on with
  | _ n ih =>
    intro xs hn
    cases xs with
    | nil => simp [chunkGo_nil]
    | cons a l =>
      rw [chunkGo_of_ne size _ hs (by simp)]
      by_cases hrest : (a :: l).drop size = []
      · rw [hrest, chunkGo_nil]
        simp
      · have hne : chunkGo size ((a :: l).drop size) ≠ [] := by
          rw [chunkGo_of_ne size _ hs hrest]
          simp
        intro c hc
        rw [List.dropLast_cons_of_ne_nil hne] at hc
        rcases List.mem_cons.mp hc with h | h
        · subst h
          have hlen : size ≤ (a :: l).length := by
            by_contra hcon
            exact hrest (List.drop_eq_nil_of_le (by omega))
          simp only [List.length_take]
          omega
        · have hlt : ((a :: l).drop size).length < n := by
            simp only [List.length_drop, List.length_cons]
            simp only [List.length_cons] at hn
            omega
          exact ih _ hlt _ rfl c h

theorem chunkGo_eq_nil_iff (size : Nat) (hs : 0 < size) (xs : List α) :
    chunkGo size xs = [] ↔ xs = [] := by
  constructor
  · intro h
    cases xs with
    | nil => rfl
    | cons a l =>
      rw [chunkGo_of_ne size _ hs (by simp)] at h
      exact absurd h (by simp)
  · intro h
    subst h
    exact chunkGo_nil size

/-- C1: for every `xs` and every `size > 0`, `chunk(xs, size)` succeeds with
a list of chunks whose concatenation is exactly `xs`, where every chunk but
possibly the last has length exactly `size`, every chunk (in particular the
last) has length in `[1, size]`, and the chunk list is empty iff `xs` is
empty. -/
theorem chunk_spec (xs : List α) (size : Nat) (hs : 0 < size) :
    ∃ cs, chunk xs size = .ok cs ∧
      cs.flatten = xs ∧
      (∀ c ∈ cs.dropLast, c.length = size) ∧
      (∀ c ∈ cs, 1 ≤ c.length ∧ c.length ≤ size) ∧
      (cs = [] ↔ xs = []) := by
  refine ⟨chunkGo size xs, ?_, chunkGo_join size hs xs,
    chunkGo_dropLast_length size hs xs, chunkGo_mem_length size hs xs,
    chunkGo_eq_nil_iff size hs xs⟩
  simp [chunk, hs]

/-- Witness for C1 at `xs = [1,2,3,4,5]`, `size = 3`. -/
theorem chunk_spec_witness :
    ∃ cs, chunk [1, 2, 3, 4, 5] 3 = .ok cs ∧
      cs.flatten = [1, 2, 3, 4, 5] ∧
      (∀ c ∈ cs.dropLast, c.length = 3) ∧
      (∀ c ∈ cs, 1 ≤ c.length ∧ c.length ≤ 3) ∧
      (cs = [] ↔ ([1, 2, 3, 4, 5] : List Nat) = []) :=
  chunk_spec [1, 2, 3, 4, 5] 3 (by decide)

/-- C4: for every `xs`, `chunk(xs, 0)` fails with the invalid-argument
error, producing no partial output (the result is the bare error value). -/
theorem chunk_zero_fails (xs : List α) :
    chunk xs 0 = .error "size must be greater than 0" := by
  simp [chunk]

/-! ## Association-list model of `HashMap` -/

/-- Model of `HashMap::get`: the value stored at key `k`, if present. -/
def lookup [DecidableEq κ] (k : κ) : List (κ × α) → Option α
  | [] => none
  | (k', v) :: rest => if k' = k then some v else lookup k rest

/-- Model of `map.entry(key).or_insert(vec![]).push(item)` used by
`group_by`: append `x` to the bucket stored at `k`, creating a fresh
one-element bucket when `k` is absent. -/
def groupByInsert [DecidableEq κ] (k : κ) (x : τ) :
    List (κ × List τ) → List (κ × List τ)
  | [] => [(k, [x])]
  | (k', v) :: rest =>
      if k' = k then (k', v ++ [x]) :: rest
      else (k', v) :: groupByInsert k x rest

/-- `group_by(items, key_resolver)` (src/array/group_by.rs): fold over the
input, appending each item to the bucket of its resolved key. -/
def group_by [DecidableEq κ] (xs : List τ) (f : τ → κ) : List (κ × List τ) :=
  xs.foldl (fun m x => groupByInsert (f x) x m) []

/-- The fluent method `GroupByExt::group_by` (src/array/group_by.rs), a
verbatim duplicate of the free function's loop over the same map API. -/
def group_byExt [DecidableEq κ] (xs : List τ) (f : τ → κ) : List (κ × List τ) :=
  xs.foldl (fun m x => groupByInsert (f x) x m) []

/-- Model of `map.entry(key).and_modify(|c| *c += 1).or_insert(1)` used by
`count_by`: increment the counter stored at `k`, initialising it to 1 when
`k` is absent. -/
def countByInsert [DecidableEq κ] (k : κ) :
    List (κ × Nat) → List (κ × Nat)
  | [] => [(k, 1)]
  | (k', n) :: rest =>
      if k' = k then (k', n + 1) :: rest
      else (k', n) :: countByInsert k rest

/-- `count_by(items, key_resolver)` (src/array/count_by.rs): fold over the
input, incrementing the counter of each item's resolved key. -/
def count_by [DecidableEq κ] (xs : List τ) (f : τ → κ) : List (κ × Nat) :=
  xs.foldl (fun m x => countByInsert (f x) m) []

/-- The fluent method `CountByExt::count_by` (src/array/count_by.rs), which
delegates to the free function. -/
def count_byExt [DecidableEq κ] (xs : List τ) (f : τ → κ) : List (κ × Nat) :=
  count_by xs f

/-- Model of `HashMap` overwrite-insert used by `key_by`'s `collect()`:
store `x` at `k`, replacing any existing entry. -/
def keyByInsert [DecidableEq κ] (k : κ) (x : τ) :
    List (κ × τ) → List (κ × τ)
  | [] => [(k, x)]
  | (k', v) :: rest =>
      if k' = k then (k', x) :: rest
      else (k', v) :: keyByInsert k x rest

/-- `key_by(items, key_resolver)` (src/array/key_by.rs): map each item to a
`(key, item)` pair and collect into a `HashMap`; later pairs with the same
key overwrite earlier ones. -/
def key_by [DecidableEq κ] (xs : List τ) (f : τ → κ) : List (κ × τ) :=
  xs.foldl (fun m x => keyByInsert (f x) x m) []

/-- The fluent method `KeyByExt::key_by` (src/array/key_by.rs), which
delegates to the free function. -/
def key_byExt [DecidableEq κ] (xs : List τ) (f : τ → κ) : List (κ × τ) :=
  key_by xs f

/-! ## `remove` (src/array/remove.rs) -/

/-- `remove(items, should_remove_element)` (src/array/remove.rs): partition
the input by the predicate (`Iterator::partition` routes each item, in
order, into the matching or non-matching vector), then return
`(kept, removed)`. -/
def remove (xs : List τ) (p : τ → Bool) : List τ × List τ :=
  let pr := xs.partition p
  (pr.2, pr.1)

/-- The fluent method `RemoveExt::remove` (src/array/remove.rs), which
delegates to the free function. -/
def removeExt (xs : List τ) (p : τ → Bool) : List τ × List τ :=
  remove xs p

/-! ## `uniq` (src/array/uniq.rs) -/

/-- The loop of `uniq` (src/array/uniq.rs): for each item, try to insert it
into the `seen` set; push it onto `result` only if it was not yet present.
The `HashSet` is modelled as the list of elements inserted so far (membership
is all the code observes). -/
def uniqLoop [DecidableEq τ] (seen : List τ) (result : List τ) :
    List τ → List τ
  | [] => result
  | x :: rest =>
      if x ∈ seen then uniqLoop seen result rest
      else uniqLoop (x :: seen) (result ++ [x]) rest

/-- `uniq(items)` (src/array/uniq.rs): run the loop with empty `seen` set
and empty `result`. -/
def uniq [DecidableEq τ] (xs : List τ) : List τ :=
  uniqLoop [] [] xs

/-- The fluent method `UniqExt::uniq` (src/array/uniq.rs), which delegates
to the free function. -/
def uniqExt [DecidableEq τ] (xs : List τ) : List τ :=
  uniq xs

/-! ## `remove`: claim C6 -/

theorem filter_not_length_add (xs : List τ) (p : τ → Bool) :
    (xs.filter fun x => !(p x)).length + (xs.filter p).length = xs.length := by
  have h := List.length_eq_length_filter_add (l := xs) p
  omega

/-- C6: for every `xs` and predicate `p`, `remove(xs, p)` returns
`(kept, removed)` where `kept` is exactly the order-preserving subsequence
of elements with `p x = false`, `removed` the one with `p x = true`, and the
two lengths sum to `len(xs)`. -/
theorem remove_spec (xs : List τ) (p : τ → Bool) :
    (remove xs p).1 = (xs.filter fun x => !(p x)) ∧
    (remove xs p).2 = xs.filter p ∧
    (remove xs p).1.length + (remove xs p).2.length = xs.length := by
  have hpart := List.partition_eq_filter_filter p xs
  have h1 : (remove xs p).1 = (xs.filter fun x => !(p x)) := by
    simp only [remove, hpart]
    rfl
  have h2 : (remove xs p).2 = xs.filter p := by
    simp only [remove, hpart]
  refine ⟨h1, h2, ?_⟩
  rw [h1, h2]
  exact filter_not_length_add xs p

/-! ## `group_by`: lookup characterisation and partition property -/

theorem lookup_groupByInsert_self [DecidableEq κ] (k : κ) (x : τ)
    (m : List (κ × List τ)) :
    lookup k (groupByInsert k x m) = some ((lookup k m).getD [] ++ [x]) := by
  induction m with
  | nil => simp [groupByInsert, lookup]
  | cons kv rest ih =>
    obtain ⟨k', v⟩ := kv
    by_cases h : k' = k
    · subst h
      simp [groupByInsert, lookup]
    · simp [groupByInsert, lookup, h, ih]

theorem lookup_groupByInsert_ne [DecidableEq κ] {k k' : κ} (h : k ≠ k')
    (x : τ) (m : List (κ × List τ)) :
    lookup k' (groupByInsert k x m) = lookup k' m := by
  induction m with
  | nil => simp [groupByInsert, lookup, h]
  | cons kv rest ih =>
    obtain ⟨k'', v⟩ := kv
    by_cases h2 : k'' = k
    · subst h2
      simp [groupByInsert, lookup, h]
    · simp [groupByInsert, lookup, h2, ih]

theorem group_by_append [DecidableEq κ] (xs : List τ) (x : τ) (f : τ → κ) :
    group_by (xs ++ [x]) f = groupByInsert (f x) x (group_by xs f) := by
  simp [group_by, List.foldl_append]

theorem lookup_group_by [DecidableEq κ] (xs : List τ) (f : τ → κ) (k : κ) :
    lookup k (group_by xs f) =
      if (xs.filter fun x => decide (f x = k)).isEmpty then none
      else some (xs.filter fun x => decide (f x = k)) := by
  induction xs using List.reverseRecOn with
  | nil => simp [group_by, lookup]
  | append_singleton xs x ih =>
    rw [group_by_append]
    by_cases hk : f x = k
    · rw [hk, lookup_groupByInsert_self, List.filter_append]
      have hd : (lookup k (group_by xs f)).getD [] =
          (xs.filter fun y => decide (f y = k)) := by
        rw [ih]
        by_cases h : (xs.filter fun y => decide (f y = k)).isEmpty
        · rw [if_pos h]
          rw [List.isEmpty_iff] at h
          simp [h]
        · rw [if_neg h]
          simp
      rw [hd]
      simp [hk]
    · rw [lookup_groupByInsert_ne hk, ih, List.filter_append]
      simp [hk]

theorem groupByInsert_cons_self [DecidableEq κ] (k : κ) (x : τ) (v : List τ)
    (rest : List (κ × List τ)) :
    groupByInsert k x ((k, v) :: rest) = (k, v ++ [x]) :: rest := by
  simp [groupByInsert]

theorem groupByInsert_cons_ne [DecidableEq κ] {k k' : κ} (h : k' ≠ k) (x : τ)
    (v : List τ) (rest : List (κ × List τ)) :
    groupByInsert k x ((k', v) :: rest) = (k', v) :: groupByInsert k x rest := by
  simp [groupByInsert, h]

theorem flatten_values_groupByInsert [DecidableEq κ] (k : κ) (x : τ)
    (m : List (κ × List τ)) :
    List.Perm ((groupByInsert k x m).map Prod.snd).flatten
      (x :: (m.map Prod.snd).flatten) := by
  induction m with
  | nil => simp [groupByInsert]
  | cons kv rest ih =>
    obtain ⟨k', v⟩ := kv
    by_cases h : k' = k
    · subst h
      rw [groupByInsert_cons_self]
      simp only [List.map_cons, List.flatten_cons]
      rw [List.append_assoc, List.singleton_append]
      exact List.perm_middle
    · rw [groupByInsert_cons_ne h]
      simp only [List.map_cons, List.flatten_cons]
      refine ((ih.append_left v)).trans ?_
      exact List.perm_middle

theorem group_by_flatten_perm [DecidableEq κ] (xs : List τ) (f : τ → κ) :
    List.Perm ((group_by xs f).map Prod.snd).flatten xs := by
  suffices h : ∀ (m : List (κ × List τ)),
      List.Perm
        ((xs.foldl (fun m x => groupByInsert (f x) x m) m).map Prod.snd).flatten
        ((m.map Prod.snd).flatten ++ xs) by
    simpa [group_by] using h []
  induction xs with
  | nil =>
    intro m
    simp
  | cons x xs ih =>
    intro m
    simp only [List.foldl_cons]
    refine (ih (groupByInsert (f x) x m)).trans ?_
    refine ((flatten_values_groupByInsert (f x) x m).append_right xs).trans ?_
    exact List.perm_middle.symm

/-- C2: for every `xs` and resolver `f`, `group_by(xs, f)` maps each key `k`
to exactly the elements of `xs` whose resolved key is `k`, in original
relative order (absent keys have no entry), and the multiset union of all
buckets is a permutation of `xs` (every element in exactly one bucket). -/
theorem group_by_spec [DecidableEq κ] (xs : List τ) (f : τ → κ) :
    (∀ k : κ, lookup k (group_by xs f) =
        if (xs.filter fun x => decide (f x = k)).isEmpty then none
        else some (xs.filter fun x => decide (f x = k))) ∧
    List.Perm ((group_by xs f).map Prod.snd).flatten xs :=
  ⟨fun k => lookup_group_by xs f k, group_by_flatten_perm xs f⟩

/-! ## `key_by`: last-wins lookup characterisation -/

theorem lookup_keyByInsert_self [DecidableEq κ] (k : κ) (x : τ)
    (m : List (κ × τ)) :
    lookup k (keyByInsert k x m) = some x := by
  induction m with
  | nil => simp [keyByInsert, lookup]
  | cons kv rest ih =>
    obtain ⟨k', v⟩ := kv
    by_cases h : k' = k
    · subst h
      simp [keyByInsert, lookup]
    · simp [keyByInsert, lookup, h, ih]

theorem lookup_keyByInsert_ne [DecidableEq κ] {k k' : κ} (h : k ≠ k')
    (x : τ) (m : List (κ × τ)) :
    lookup k' (keyByInsert k x m) = lookup k' m := by
  induction m with
  | nil => simp [keyByInsert, lookup, h]
  | cons kv rest ih =>
    obtain ⟨k'', v⟩ := kv
    by_cases h2 : k'' = k
    · subst h2
      simp [keyByInsert, lookup, h]
    · simp [keyByInsert, lookup, h2, ih]

theorem key_by_append [DecidableEq κ] (xs : List τ) (x : τ) (f : τ → κ) :
    key_by (xs ++ [x]) f = keyByInsert (f x) x (key_by xs f) := by
  simp [key_by, List.foldl_append]

/-- C3: for every `xs`, resolver `f` and key `k`, the entry of
`key_by(xs, f)` at `k` is the last element of `xs` (in iteration order)
whose resolved key is `k`, and the key is present iff some element resolves
to it (`getLast?` of the empty filter is `none`). -/
theorem key_by_spec [DecidableEq κ] (xs : List τ) (f : τ → κ) (k : κ) :
    lookup k (key_by xs f) = (xs.filter fun x => decide (f x = k)).getLast? := by
  induction xs using List.reverseRecOn with
  | nil => simp [key_by, lookup]
  | append_singleton xs x ih =>
    rw [key_by_append]
    by_cases hk : f x = k
    · rw [hk, lookup_keyByInsert_self, List.filter_append]
      simp [hk]
    · rw [lookup_keyByInsert_ne hk, ih, List.filter_append]
      simp [hk]

/-! ## `count_by`: coherence with `group_by`, per-key counts, total count -/

theorem lookup_countByInsert_self [DecidableEq κ] (k : κ) (m : List (κ × Nat)) :
    lookup k (countByInsert k m) = some ((lookup k m).getD 0 + 1) := by
  induction m with
  | nil => simp [countByInsert, lookup]
  | cons kv rest ih =>
    obtain ⟨k', n⟩ := kv
    by_cases h : k' = k
    · subst h
      simp [countByInsert, lookup]
    · simp [countByInsert, lookup, h, ih]

theorem lookup_countByInsert_ne [DecidableEq κ] {k k' : κ} (h : k ≠ k')
    (m : List (κ × Nat)) :
    lookup k' (countByInsert k m) = lookup k' m := by
  induction m with
  | nil => simp [countByInsert, lookup, h]
  | cons kv rest ih =>
    obtain ⟨k'', n⟩ := kv
    by_cases h2 : k'' = k
    · subst h2
      simp [countByInsert, lookup, h]
    · simp [countByInsert, lookup, h2, ih]

theorem count_by_append [DecidableEq κ] (xs : List τ) (x : τ) (f : τ → κ) :
    count_by (xs ++ [x]) f = countByInsert (f x) (count_by xs f) := by
  simp [count_by, List.foldl_append]

theorem lookup_count_by_eq_map_length [DecidableEq κ] (xs : List τ)
    (f : τ → κ) (k : κ) :
    lookup k (count_by xs f) = (lookup k (group_by xs f)).map List.length := by
  induction xs using List.reverseRecOn with
  | nil => simp [count_by, group_by, lookup]
  | append_singleton xs x ih =>
    rw [count_by_append, group_by_append]
    by_cases hk : f x = k
    · rw [hk, lookup_countByInsert_self, lookup_groupByInsert_self, ih]
      cases h : lookup k (group_by xs f) with
      | none => simp [h]
      | some b => simp [h]
    · rw [lookup_countByInsert_ne hk, lookup_groupByInsert_ne hk, ih]

theorem sum_countByInsert [DecidableEq κ] (k : κ) (m : List (κ × Nat)) :
    ((countByInsert k m).map Prod.snd).sum = (m.map Prod.snd).sum + 1 := by
  induction m with
  | nil => simp [countByInsert]
  | cons kv rest ih =>
    obtain ⟨k', n⟩ := kv
    by_cases h : k' = k
    · subst h
      simp [countByInsert]
      omega
    · simp [countByInsert, h, ih]
      omega

theorem count_by_sum [DecidableEq κ] (xs : List τ) (f : τ → κ) :
    ((count_by xs f).map Prod.snd).sum = xs.length := by
  suffices h : ∀ (m : List (κ × Nat)),
      ((xs.foldl (fun m x => countByInsert (f x) m) m).map Prod.snd).sum
        = (m.map Prod.snd).sum + xs.length by
    simpa [count_by] using h []
  induction xs with
  | nil =>
    intro m
    simp
  | cons x xs ih =>
    intro m
    simp only [List.foldl_cons]
    rw [ih (countByInsert (f x) m), sum_countByInsert]
    simp only [List.length_cons]
    omega

theorem lookup_count_by [DecidableEq κ] (xs : List τ) (f : τ → κ) (k : κ) :
    lookup k (count_by xs f) =
      if (xs.countP fun x => decide (f x = k)) = 0 then none
      else some (xs.countP fun x => decide (f x = k)) := by
  rw [lookup_count_by_eq_map_length, lookup_group_by,
    List.countP_eq_length_filter]
  by_cases h : (xs.filter fun x => decide (f x = k)) = []
  · simp [h]
  · have hne : (xs.filter fun x => decide (f x = k)).length ≠ 0 := by
      simpa [List.length_eq_zero] using h
    rw [if_neg (by simpa [List.isEmpty_iff] using h), if_neg hne]
    rfl

/-- C5: for every `xs` and resolver `f`, the counts of `count_by(xs, f)` sum
to `len(xs)`; each present key's count equals the number of elements of `xs`
resolving to that key; and keys with no corresponding element are absent
(lookup is `none` exactly when the count over `xs` is zero). -/
theorem count_by_spec [DecidableEq κ] (xs : List τ) (f : τ → κ) :
    (∀ k : κ, lookup k (count_by xs f) =
        if (xs.countP fun x => decide (f x = k)) = 0 then none
        else some (xs.countP fun x => decide (f x = k))) ∧
    ((count_by xs f).map Prod.snd).sum = xs.length :=
  ⟨fun k => lookup_count_by xs f k, count_by_sum xs f⟩

/-- C10: for every `xs` and resolver `f`, `count_by(xs, f)` and
`group_by(xs, f)` are coherent: lookup at any key in the former equals the
length of the bucket at that key in the latter (so in particular the two
maps have exactly the same keys). -/
theorem count_by_group_by_coherent [DecidableEq κ] (xs : List τ) (f : τ → κ)
    (k : κ) :
    lookup k (count_by xs f) = (lookup k (group_by xs f)).map List.length :=
  lookup_count_by_eq_map_length xs f k

/-! ## `uniq`: first-occurrence deduplication (claims C7 and C9) -/

/-- Accumulator-free form of the `uniq` loop, used to reason about it:
`uniqAux seen xs` is the list of first occurrences in `xs` of elements not
already in `seen`. -/
def uniqAux [DecidableEq τ] (seen : List τ) : List τ → List τ
  | [] => []
  | x :: rest =>
      if x ∈ seen then uniqAux seen rest
      else x :: uniqAux (x :: seen) rest

theorem uniqLoop_eq [DecidableEq τ] (seen acc : List τ) (xs : List τ) :
    uniqLoop seen acc xs = acc ++ uniqAux seen xs := by
  induction xs generalizing seen acc with
  | nil => simp [uniqLoop, uniqAux]
  | cons x rest ih =>
    by_cases h : x ∈ seen
    · simp [uniqLoop, uniqAux, h, ih]
    · simp [uniqLoop, uniqAux, h, ih]

theorem uniqAux_congr [DecidableEq τ] {seen seen' : List τ}
    (h : ∀ y, y ∈ seen ↔ y ∈ seen') (xs : List τ) :
    uniqAux seen xs = uniqAux seen' xs := by
  induction xs generalizing seen seen' with
  | nil => rfl
  | cons x rest ih =>
    by_cases hx : x ∈ seen
    · have hx' : x ∈ seen' := (h x).mp hx
      simp [uniqAux, hx, hx', ih h]
    · have hx' : x ∉ seen' := fun hc => hx ((h x).mpr hc)
      have h2 : ∀ y, y ∈ x :: seen ↔ y ∈ x :: seen' := by
        intro y
        simp [h y]
      simp [uniqAux, hx, hx', ih h2]

theorem uniqAux_cons_seen [DecidableEq τ] (a : τ) (seen : List τ)
    (xs : List τ) :
    uniqAux (a :: seen) xs =
      (uniqAux seen xs).filter (fun y => decide (y ≠ a)) := by
  induction xs generalizing seen with
  | nil => rfl
  | cons x rest ih =>
    by_cases hxa : x = a
    · subst hxa
      by_cases hx : x ∈ seen
      · simp [uniqAux, hx, ih]
      · have hL : uniqAux (x :: seen) (x :: rest) = uniqAux (x :: seen) rest := by
          simp [uniqAux]
        have hR : uniqAux seen (x :: rest) = x :: uniqAux (x :: seen) rest := by
          simp [uniqAux, hx]
        rw [hL, hR, ih seen, List.filter_cons]
        simp [List.filter_filter]
    · by_cases hx : x ∈ seen
      · have : x ∈ a :: seen ↔ True := by simp [hx]
        simp [uniqAux, hx, hxa, ih]
      · have hmem : x ∉ a :: seen := by
          simp [hxa, hx]
        simp only [uniqAux, if_neg hmem, if_neg hx]
        rw [List.filter_cons]
        have hcongr : uniqAux (x :: a :: seen) rest =
            uniqAux (a :: x :: seen) rest := by
          refine uniqAux_congr ?_ rest
          intro y
          simp
          tauto
        rw [hcongr, ih (x :: seen)]
        simp [hxa]

theorem uniq_eq_uniqAux [DecidableEq τ] (xs : List τ) :
    uniq xs = uniqAux [] xs := by
  rw [uniq, uniqLoop_eq]
  rfl

theorem uniq_cons [DecidableEq τ] (x : τ) (xs : List τ) :
    uniq (x :: xs) = x :: (uniq xs).filter (fun y => decide (y ≠ x)) := by
  rw [uniq_eq_uniqAux, uniq_eq_uniqAux]
  show (if x ∈ ([] : List τ) then uniqAux [] xs
    else x :: uniqAux [x] xs) = _
  rw [if_neg (List.not_mem_nil x)]
  rw [show ([x] : List τ) = x :: [] from rfl, uniqAux_cons_seen]

theorem mem_uniq [DecidableEq τ] (xs : List τ) (x : τ) :
    x ∈ uniq xs ↔ x ∈ xs := by
  induction xs with
  | nil => simp [uniq, uniqLoop]
  | cons a l ih =>
    rw [uniq_cons]
    by_cases hxa : x = a
    · subst hxa
      simp
    · simp [List.mem_filter, hxa, ih]

theorem uniq_nodup [DecidableEq τ] (xs : List τ) : (uniq xs).Nodup := by
  induction xs with
  | nil => simp [uniq, uniqLoop]
  | cons a l ih =>
    rw [uniq_cons]
    refine List.nodup_cons.mpr ⟨?_, ih.filter _⟩
    intro hmem
    have := (List.mem_filter.mp hmem).2
    simp at this

theorem uniq_pairwise_indexOf [DecidableEq τ] (xs : List τ) :
    (uniq xs).Pairwise (fun a b => xs.indexOf a < xs.indexOf b) := by
  induction xs with
  | nil => simp [uniq, uniqLoop]
  | cons a l ih =>
    rw [uniq_cons]
    refine List.Pairwise.cons ?_ ?_
    · intro b hb
      have hmemf := List.mem_filter.mp hb
      have hba : b ≠ a := by
        have := hmemf.2
        simpa using this
      rw [List.indexOf_cons_self, List.indexOf_cons_ne l hba.symm]
      exact Nat.succ_pos _
    · have hpw := ih.filter (fun y => decide (y ≠ a))
      refine hpw.imp_of_mem ?_
      intro b c hb hc hlt
      have hba : b ≠ a := by
        have := (List.mem_filter.mp hb).2
        simpa using this
      have hca : c ≠ a := by
        have := (List.mem_filter.mp hc).2
        simpa using this
      rw [List.indexOf_cons_ne l hba.symm, List.indexOf_cons_ne l hca.symm]
      omega

/-- C7: for every `xs`, `uniq(xs)` contains no duplicates, its elements are
exactly those of `xs`, and they appear ordered by first occurrence in `xs`
(strictly increasing first-occurrence indices), so each distinct element of
`xs` appears exactly once. -/
theorem uniq_spec [DecidableEq τ] (xs : List τ) :
    (uniq xs).Nodup ∧ (∀ x, x ∈ uniq xs ↔ x ∈ xs) ∧
    (uniq xs).Pairwise (fun a b => xs.indexOf a < xs.indexOf b) :=
  ⟨uniq_nodup xs, fun x => mem_uniq xs x, uniq_pairwise_indexOf xs⟩

theorem uniq_of_nodup [DecidableEq τ] {xs : List τ} (h : xs.Nodup) :
    uniq xs = xs := by
  induction xs with
  | nil => rfl
  | cons a l ih =>
    have hnotmem : a ∉ l := (List.nodup_cons.mp h).1
    have hnd : l.Nodup := (List.nodup_cons.mp h).2
    rw [uniq_cons, ih hnd]
    congr 1
    refine List.filter_eq_self.mpr ?_
    intro b hb
    have : b ≠ a := fun hba => hnotmem (hba ▸ hb)
    simpa using this

/-- C9: `uniq` is idempotent: deduplicating an already deduplicated list
changes nothing. -/
theorem uniq_idem [DecidableEq τ] (xs : List τ) :
    uniq (uniq xs) = uniq xs :=
  uniq_of_nodup (uniq_nodup xs)

/-! ## Fluent extension methods agree with the free functions (claim C8) -/

theorem chunkExtGo_eq (size : Nat) (xs : List α) :
    chunkExtGo size xs = chunkGo size xs := by
  suffices h : ∀ n (xs : List α), xs.length = n →
      chunkExtGo size xs = chunkGo size xs from h xs.length xs rfl
  intro n
  induction n using Nat.strong_induction_on with
  | _ n ih =>
    intro xs hn
    by_cases h : (xs.take size).isEmpty
    · rw [chunkExtGo, chunkGo, dif_pos h, dif_pos h]
    · rw [chunkExtGo, chunkGo, dif_neg h, dif_neg h]
      have hlt : (xs.drop size).length < n := by
        simp only [List.isEmpty_iff, List.take_eq_nil_iff] at h
        push_neg at h
        have hx : 0 < xs.length := List.length_pos.mpr h.2
        simp only [List.length_drop]
        omega
      rw [ih _ hlt _ rfl]

/-- C8: every fluent extension method produces exactly the result of the
corresponding free function, on every input: `ChunkExt::chunk` (its own copy
of the loop) agrees with `chunk`, `GroupByExt::group_by` (its own copy of
the loop) agrees with `group_by`, and the delegating `count_by`, `key_by`,
`remove` and `uniq` methods agree with their free functions. -/
theorem ext_methods_eq_free [DecidableEq κ] [DecidableEq τ]
    (xs : List τ) (size : Nat) (f : τ → κ) (p : τ → Bool) :
    chunkExt xs size = chunk xs size ∧
    group_byExt xs f = group_by xs f ∧
    count_byExt xs f = count_by xs f ∧
    key_byExt xs f = key_by xs f ∧
    removeExt xs p = remove xs p ∧
    uniqExt xs = uniq xs := by
  refine ⟨?_, rfl, rfl, rfl, rfl, rfl⟩
  rw [chunkExt, chunk, chunkExtGo_eq]

end RustToolkit
